import Mathlib

/-!
# Verification of the `plonky2-bn254` Fq12 gadget core

Shallow embedding of `src/fields/fq12_target.rs` and `src/utils.rs`:

* host-side base-field values are `Fq := ZMod bn254p`;
* a tower-field value is its array of 12 `Fq` coefficients (the `MyFq12` layout);
* circuit-side gadget structure (wires, constraints, hint registration) is
  modelled by explicit wire indices and a state-passing circuit builder;
* hint execution (`run_once`) is modelled as a function from the concrete
  values its dependencies hold to the values it writes, with `Option` for
  fatal witness-generation failures.

External collaborators (the base-field coefficient gadget `FqTarget`, the
native field library, `num_bigint`) are not under `src/`; definitions for
them are modelled from the spec and say so in their doc comments.
-/

/-- The BN254 base-field prime, the modulus of the host-side coefficient type
`ark_bn254::Fq`. -/
def bn254p : Nat :=
  21888242871839275222246405745257275088696311157297823662689037894645226208583

/-- Host-side base-field value: one tower coefficient, a big integer reduced
modulo the base-field prime. -/
abbrev Fq : Type := ZMod bn254p

/-! ## `src/utils.rs`: digit/bit conversion helpers (claim C10) -/

/-- The 8 bits of one little-endian byte, least significant first
(`limb.view_bits::<Lsb0>()` in `biguint_to_bits`). -/
def byteBits (b : Nat) : List Bool :=
  [b.testBit 0, b.testBit 1, b.testBit 2, b.testBit 3,
   b.testBit 4, b.testBit 5, b.testBit 6, b.testBit 7]

/-- Fuel-indexed little-endian base-256 digit expansion (the fuel is only a
termination device; `toBytesLE` always supplies enough). -/
def toBytesAux : Nat → Nat → List Nat
  | _, 0 => []
  | 0, _ + 1 => []
  | fuel + 1, x + 1 => (x + 1) % 256 :: toBytesAux fuel ((x + 1) / 256)

/-- Modelled from the spec: `BigUint::to_bytes_le` (external `num_bigint`
routine): the minimal little-endian byte expansion of a big integer, with
`[0]` for zero. -/
def toBytesLE (x : Nat) : List Nat :=
  if x = 0 then [0] else toBytesAux x x

/-- `biguint_to_bits` from `src/utils.rs`: expand each little-endian byte into
its 8 bits (least significant first) and pad with `false` up to `len`;
`none` models the `assert!(bits.len() <= len)` abort. -/
def biguint_to_bits (x : Nat) (len : Nat) : Option (List Bool) :=
  let bits := (toBytesLE x).flatMap byteBits
  if bits.length ≤ len then
    some (bits ++ List.replicate (len - bits.length) false)
  else none

/-- `bits.chunks(8)` from `bits_to_biguint`: split into chunks of 8, the last
possibly shorter. -/
def chunks8 : List Bool → List (List Bool)
  | [] => []
  | b :: rest => (b :: rest).take 8 :: chunks8 (rest.drop 7)
termination_by l => l.length
decreasing_by
  simp only [List.length_cons, List.length_drop]
  omega

/-- The inner loop of `bits_to_biguint`: assemble one byte from a bit chunk via
`limb |= 1 << i`. -/
def chunkByte (c : List Bool) : Nat :=
  c.enum.foldl (fun limb ib => if ib.2 then limb ||| (1 <<< ib.1) else limb) 0

/-- Modelled from the spec: `BigUint::from_bytes_le` (external `num_bigint`
routine), the little-endian base-256 value of a byte list. -/
def fromBytesLE (limbs : List Nat) : Nat := Nat.ofDigits 256 limbs

/-- `bits_to_biguint` from `src/utils.rs`. -/
def bits_to_biguint (bits : List Bool) : Nat :=
  fromBytesLE ((chunks8 bits).map chunkByte)

/-! ### C10 helper lemmas -/

theorem toBytesAux_ofDigits (fuel x : Nat) (h : x ≤ fuel) :
    Nat.ofDigits 256 (toBytesAux fuel x) = x := by
  induction fuel generalizing x with
  | zero =>
      interval_cases x
      simp [toBytesAux]
  | succ n ih =>
      cases x with
      | zero => simp [toBytesAux]
      | succ y =>
          have hdiv : (y + 1) / 256 ≤ n := by
            have := Nat.div_le_self (y + 1) 256
            have h2 : (y + 1) / 256 < y + 1 := Nat.div_lt_self (Nat.succ_pos y) (by omega)
            omega
          simp only [toBytesAux, Nat.ofDigits_cons, ih _ hdiv]
          omega

theorem toBytesAux_lt (fuel x d : Nat) (h : d ∈ toBytesAux fuel x) : d < 256 := by
  induction fuel generalizing x with
  | zero =>
      cases x <;> simp [toBytesAux] at h
  | succ n ih =>
      cases x with
      | zero => simp [toBytesAux] at h
      | succ y =>
          simp only [toBytesAux, List.mem_cons] at h
          rcases h with h | h
          · subst h; exact Nat.mod_lt _ (by omega)
          · exact ih _ h

theorem toBytesLE_ofDigits (x : Nat) : Nat.ofDigits 256 (toBytesLE x) = x := by
  unfold toBytesLE
  by_cases h : x = 0
  · simp [h, Nat.ofDigits]
  · simp only [h, if_false]
    exact toBytesAux_ofDigits x x le_rfl

theorem toBytesLE_lt (x d : Nat) (h : d ∈ toBytesLE x) : d < 256 := by
  unfold toBytesLE at h
  by_cases hx : x = 0
  · simp [hx] at h
    omega
  · simp only [hx, if_false] at h
    exact toBytesAux_lt x x d h

theorem byteBits_length (b : Nat) : (byteBits b).length = 8 := rfl

theorem flatMap_byteBits_length (bs : List Nat) :
    (bs.flatMap byteBits).length = 8 * bs.length := by
  induction bs with
  | nil => simp
  | cons b rest ih =>
      simp [List.flatMap_cons, ih, byteBits_length]
      ring

set_option maxRecDepth 4096 in
theorem chunkByte_byteBits (b : Nat) (hb : b < 256) : chunkByte (byteBits b) = b := by
  revert hb
  revert b
  decide

theorem chunks8_byte_prepend (b : Nat) (rest : List Bool) :
    chunks8 (byteBits b ++ rest) = byteBits b :: chunks8 rest := by
  simp [byteBits, chunks8]

theorem chunkByte_replicate_false (k : Nat) : chunkByte (List.replicate k false) = 0 := by
  have h : ∀ l : List Bool, (∀ x ∈ l, x = false) →
      ∀ start acc, (List.foldl (fun limb ib => if ib.2 then limb ||| (1 <<< ib.1) else limb)
        acc (l.enumFrom start)) = acc := by
    intro l
    induction l with
    | nil => intro _ _ _; simp
    | cons x xs ih =>
        intro hall start acc
        have hx : x = false := hall x (List.mem_cons_self x xs)
        simp only [List.enumFrom, List.foldl_cons, hx, if_false]
        exact ih (fun y hy => hall y (List.mem_cons_of_mem x hy)) (start + 1) acc
  have h2 : ∀ x ∈ List.replicate k false, x = false := fun x hx => List.eq_of_mem_replicate hx
  unfold chunkByte
  rw [show (List.replicate k false).enum = (List.replicate k false).enumFrom 0 from rfl]
  exact h _ h2 0 0

theorem bits_value_replicate_false (m : Nat) :
    fromBytesLE ((chunks8 (List.replicate m false)).map chunkByte) = 0 := by
  induction m using Nat.strong_induction_on with
  | _ m ih =>
      cases m with
      | zero => simp [chunks8, fromBytesLE, Nat.ofDigits]
      | succ n =>
          have h1 : chunks8 (List.replicate (n + 1) false) =
              List.take 8 (List.replicate (n + 1) false) ::
                chunks8 (List.drop 7 (List.replicate n false)) := by
            rw [List.replicate_succ]
            simp only [chunks8]
          have h2 : chunkByte (List.take 8 (List.replicate (n + 1) false)) = 0 := by
            simp only [List.take_replicate]
            exact chunkByte_replicate_false _
          rw [h1, List.drop_replicate]
          simp only [List.map_cons, fromBytesLE, Nat.ofDigits_cons, h2]
          have := ih (n - 7) (by omega)
          simp only [fromBytesLE] at this
          rw [this]

theorem bits_value_bytes (bs : List Nat) (m : Nat) (hlt : ∀ b ∈ bs, b < 256) :
    fromBytesLE ((chunks8 (bs.flatMap byteBits ++ List.replicate m false)).map chunkByte)
      = Nat.ofDigits 256 bs := by
  induction bs with
  | nil =>
      simp only [List.flatMap_nil, List.nil_append]
      rw [bits_value_replicate_false]
      simp [Nat.ofDigits]
  | cons b rest ih =>
      simp only [List.flatMap_cons, List.append_assoc]
      rw [chunks8_byte_prepend]
      simp only [List.map_cons, fromBytesLE, Nat.ofDigits_cons]
      have hb : b < 256 := hlt b (List.mem_cons_self b rest)
      rw [chunkByte_byteBits b hb]
      have := ih (fun y hy => hlt y (List.mem_cons_of_mem b hy))
      simp only [fromBytesLE] at this
      rw [this]

/-- C10: when `8 * |to_bytes_le(x)| ≤ len`, `biguint_to_bits x len` returns
exactly `len` bits, least-significant-first with `false` padding, and
`bits_to_biguint` inverts it; when the byte-expanded bit count exceeds `len`
the assertion fails (modelled as `none`). -/
theorem biguint_bits_roundtrip (x len : Nat) :
    (8 * (toBytesLE x).length ≤ len →
      ∃ bl, biguint_to_bits x len = some bl ∧ bl.length = len ∧
        bits_to_biguint bl = x) ∧
    (len < 8 * (toBytesLE x).length → biguint_to_bits x len = none) := by
  have hlen : ((toBytesLE x).flatMap byteBits).length = 8 * (toBytesLE x).length :=
    flatMap_byteBits_length _
  constructor
  · intro h
    refine ⟨(toBytesLE x).flatMap byteBits ++
      List.replicate (len - ((toBytesLE x).flatMap byteBits).length) false, ?_, ?_, ?_⟩
    · unfold biguint_to_bits
      rw [if_pos (by omega)]
    · simp only [List.length_append, List.length_replicate]
      omega
    · unfold bits_to_biguint
      exact bits_value_bytes (toBytesLE x) _ (toBytesLE_lt x) |>.trans (toBytesLE_ofDigits x)
  · intro h
    unfold biguint_to_bits
    rw [if_neg (by omega)]

/-- Witness for C10 at `x = 300`, `len = 24` (and the failing branch at
`len = 15`). -/
theorem biguint_bits_roundtrip_witness :
    (∃ bl, biguint_to_bits 300 24 = some bl ∧ bl.length = 24 ∧
        bits_to_biguint bl = 300) ∧ biguint_to_bits 300 15 = none :=
  ⟨(biguint_bits_roundtrip 300 24).1 (by decide),
   (biguint_bits_roundtrip 300 15).2 (by decide)⟩

/-! ## Wire-level gadget structure (claims C4, C6, C7, C9) -/

/-- A wire reference (plonky2 `Target`), modelled by its index. -/
abbrev TargetW : Type := Nat

/-- Modelled from the spec: the external base-field coefficient gadget
(`FqTarget`, not under `src/`): a constrained non-native integer carried by
exactly 8 limb wires. -/
@[ext]
structure FqTargetW where
  limbs : Fin 8 → TargetW

instance : Inhabited FqTargetW := ⟨⟨fun _ => 0⟩⟩

/-- Modelled from the spec: `FqTarget::to_vec` — the 8-wire flat form of one
coefficient, in limb order. -/
def FqTargetW.toVec (t : FqTargetW) : List TargetW :=
  (List.finRange 8).map t.limbs

/-- Modelled from the spec: `FqTarget::from_vec` — rebuild one coefficient
gadget from its 8 limb wires. -/
def FqTargetW.fromVec (l : List TargetW) : FqTargetW :=
  ⟨fun i => l.getD i 0⟩

/-- `Fq12Target` at the wire level: an ordered array of exactly 12 coefficient
gadgets. -/
@[ext]
structure Fq12TargetW where
  coeffs : Fin 12 → FqTargetW

/-- `Fq12Target::to_vec` from `src/fields/fq12_target.rs`: concatenate, in
coefficient order, the flat forms of the 12 coefficients. -/
def Fq12TargetW.toVec (g : Fq12TargetW) : List TargetW :=
  (List.finRange 12).flatMap (fun i => (g.coeffs i).toVec)

/-- `Fq12Target::from_vec` from `src/fields/fq12_target.rs`: requires exactly
`12 * 8` wires (`assert_eq!`, the abort modelled as `none`), then groups them
into 12 consecutive chunks of 8 and rebuilds one coefficient per chunk. -/
def Fq12TargetW.fromVec (input : List TargetW) : Option Fq12TargetW :=
  if input.length = 12 * 8 then
    some ⟨fun i => FqTargetW.fromVec ((input.drop (8 * (i : Nat))).take 8)⟩
  else none

theorem FqTargetW.toVec_len_eight (t : FqTargetW) : t.toVec.length = 8 := rfl

theorem FqTargetW.fromVec_toVec (t : FqTargetW) : FqTargetW.fromVec t.toVec = t := by
  ext j
  fin_cases j <;> rfl

theorem Fq12TargetW.toVec_length (g : Fq12TargetW) : g.toVec.length = 96 := rfl

/-- C6: `to_flat` yields the 96 limb wires in coefficient order and
`from_flat` inverts it: every tower-field gadget round-trips coefficient-wise
(in particular `constant(v)` does, for every native value `v`). -/
theorem to_flat_from_flat_roundtrip (g : Fq12TargetW) :
    g.toVec.length = 96 ∧ Fq12TargetW.fromVec g.toVec = some g := by
  refine ⟨g.toVec_length, ?_⟩
  unfold Fq12TargetW.fromVec
  rw [if_pos (by rw [g.toVec_length])]
  refine congrArg some ?_
  ext i j
  fin_cases i <;> fin_cases j <;> rfl

/-- C7: `from_flat` succeeds exactly on sequences of 96 wires (anything else
hits the `assert_eq!` precondition abort, modelled `none`), and on success
groups them into 12 consecutive chunks of 8, one coefficient per chunk. -/
theorem from_flat_length_precondition (l : List TargetW) :
    ((Fq12TargetW.fromVec l).isSome ↔ l.length = 96) ∧
    (l.length = 96 → ∃ g, Fq12TargetW.fromVec l = some g ∧
      ∀ (i : Fin 12) (j : Fin 8),
        (g.coeffs i).limbs j = l.getD (8 * (i : Nat) + (j : Nat)) 0) := by
  constructor
  · unfold Fq12TargetW.fromVec
    by_cases h : l.length = 12 * 8
    · rw [if_pos h]
      simp [h]
    · rw [if_neg h]
      simp only [Option.isSome_none, Bool.false_eq_true, false_iff]
      omega
  · intro h96
    refine ⟨⟨fun i => FqTargetW.fromVec ((l.drop (8 * (i : Nat))).take 8)⟩, ?_, ?_⟩
    · unfold Fq12TargetW.fromVec
      rw [if_pos (by omega)]
    · intro i j
      show ((l.drop (8 * (i : Nat))).take 8).getD (j : Nat) 0 = _
      have hi : (i : Nat) < 12 := i.isLt
      have hj : (j : Nat) < 8 := j.isLt
      have hlen : ((l.drop (8 * (i : Nat))).take 8).length = 8 := by
        simp only [List.length_take, List.length_drop, h96]
        omega
      rw [List.getD_eq_getElem _ _ (by omega),
          List.getD_eq_getElem _ _ (by omega : 8 * (i : Nat) + (j : Nat) < l.length)]
      simp [List.getElem_take, List.getElem_drop]

/-- Witness for C7 at the concrete 96-wire sequence `0, 1, ..., 95`. -/
theorem from_flat_length_precondition_witness :
    (List.range 96).length = 96 ∧
    ∃ g, Fq12TargetW.fromVec (List.range 96) = some g ∧
      ∀ (i : Fin 12) (j : Fin 8),
        (g.coeffs i).limbs j = (List.range 96).getD (8 * (i : Nat) + (j : Nat)) 0 :=
  ⟨by decide, (from_flat_length_precondition (List.range 96)).2 (by decide)⟩

/-! ### Serialization (claim C9) -/

/-- Modelled from the spec: `FqTarget::serialize` (external, opaque
coefficient format): one coefficient gadget's serialized form, modelled as
its 8 limb wire references in order. -/
def FqTargetW.serializeFq (t : FqTargetW) : List TargetW := t.toVec

/-- Modelled from the spec: `FqTarget::deserialize` (external): reads one
coefficient gadget back from the stream, surfacing a typed decoding error
(modelled `none`) on a truncated stream instead of aborting. -/
def FqTargetW.deserializeFq (src : List TargetW) :
    Option (FqTargetW × List TargetW) :=
  if 8 ≤ src.length then some (FqTargetW.fromVec (src.take 8), src.drop 8) else none

/-- `Fq12Target::serialize` from `src/fields/fq12_target.rs`: write the 12
coefficient gadgets in coefficient order, delegating each to the coefficient
format. -/
def Fq12TargetW.serializeW (g : Fq12TargetW) : List TargetW :=
  (List.finRange 12).flatMap fun i => (g.coeffs i).serializeFq

/-- The `[0; 12].iter().map(|_| FqTarget::deserialize(src)).collect::<Result<_, _>>()`
loop of `Fq12Target::deserialize`: read `n` coefficient gadgets in order,
propagating the first decoding error. -/
def readFqs : Nat → List TargetW → Option (List FqTargetW × List TargetW)
  | 0, src => some ([], src)
  | n + 1, src =>
      (FqTargetW.deserializeFq src).bind fun tr =>
        (readFqs n tr.2).map fun lsr => (tr.1 :: lsr.1, lsr.2)

/-- `Fq12Target::deserialize` from `src/fields/fq12_target.rs`: read exactly
12 coefficient gadgets in coefficient order. -/
def Fq12TargetW.deserializeW (src : List TargetW) :
    Option (Fq12TargetW × List TargetW) :=
  (readFqs 12 src).map fun lsr => (⟨fun i => lsr.1.getD i default⟩, lsr.2)

theorem deserializeFq_toVec (t : FqTargetW) (r : List TargetW) :
    FqTargetW.deserializeFq (t.toVec ++ r) = some (t, r) := by
  unfold FqTargetW.deserializeFq
  rw [if_pos (by simp [FqTargetW.toVec_len_eight])]
  rw [show (8 : Nat) = t.toVec.length from (FqTargetW.toVec_len_eight t).symm]
  rw [List.take_left, List.drop_left]
  rw [FqTargetW.fromVec_toVec]

theorem readFqs_flatMap (ts : List FqTargetW) (rest : List TargetW) :
    readFqs ts.length (ts.flatMap FqTargetW.toVec ++ rest) = some (ts, rest) := by
  induction ts generalizing rest with
  | nil => simp [readFqs]
  | cons t ts' ih =>
      have h1 : (t :: ts').flatMap FqTargetW.toVec ++ rest
          = t.toVec ++ (ts'.flatMap FqTargetW.toVec ++ rest) := by
        simp [List.flatMap_cons, List.append_assoc]
      rw [List.length_cons, h1]
      show (FqTargetW.deserializeFq (t.toVec ++ (ts'.flatMap FqTargetW.toVec ++ rest))).bind
          (fun tr => (readFqs ts'.length tr.2).map fun lsr => (tr.1 :: lsr.1, lsr.2)) = _
      rw [deserializeFq_toVec, Option.some_bind, ih rest]
      rfl

theorem readFqs_short (n : Nat) (src : List TargetW) (h : src.length < 8 * n) :
    readFqs n src = none := by
  induction n generalizing src with
  | zero => omega
  | succ m ih =>
      unfold readFqs FqTargetW.deserializeFq
      by_cases h8 : 8 ≤ src.length
      · rw [if_pos h8]
        rw [Option.some_bind]
        rw [ih (src.drop 8) (by simp [List.length_drop]; omega)]
        rfl
      · rw [if_neg h8]
        rfl

/-- C9: a tower-field gadget serializes as the 12 coefficient gadgets'
serialized forms concatenated in coefficient order, deserialization reads
exactly 12 back in that order (so serialize-then-deserialize returns the
gadget and leaves the rest of the stream), and a truncated stream surfaces a
typed decoding error (`none`) rather than aborting. -/
theorem fq12_serialization_roundtrip (g : Fq12TargetW) (rest src : List TargetW) :
    g.serializeW = (List.finRange 12).flatMap (fun i => (g.coeffs i).serializeFq) ∧
    Fq12TargetW.deserializeW (g.serializeW ++ rest) = some (g, rest) ∧
    (src.length < 96 → Fq12TargetW.deserializeW src = none) := by
  refine ⟨rfl, ?_, ?_⟩
  · have hg : g.serializeW = ((List.finRange 12).map g.coeffs).flatMap FqTargetW.toVec := by
      unfold Fq12TargetW.serializeW FqTargetW.serializeFq
      rw [List.flatMap_map]
    have hlen : ((List.finRange 12).map g.coeffs).length = 12 := by simp
    have h12 : readFqs 12 (((List.finRange 12).map g.coeffs).flatMap FqTargetW.toVec ++ rest)
        = some ((List.finRange 12).map g.coeffs, rest) := by
      have h := readFqs_flatMap ((List.finRange 12).map g.coeffs) rest
      rwa [hlen] at h
    unfold Fq12TargetW.deserializeW
    rw [hg, h12]
    refine congrArg some (Prod.ext ?_ rfl)
    refine Fq12TargetW.ext ?_
    funext i
    fin_cases i <;> rfl
  · intro hshort
    unfold Fq12TargetW.deserializeW
    rw [readFqs_short 12 src (by omega)]
    rfl

/-- Witness for C9's truncated-stream clause at the concrete stream `[0, 1, 2]`
(and the round trip at a concrete gadget). -/
theorem fq12_serialization_roundtrip_witness :
    Fq12TargetW.deserializeW
        ((Fq12TargetW.mk fun i => ⟨fun j => 8 * (i : Nat) + j⟩).serializeW ++ [7]) =
      some (⟨fun i => ⟨fun j => 8 * (i : Nat) + j⟩⟩, [7]) ∧
    Fq12TargetW.deserializeW [0, 1, 2] = none :=
  ⟨(fq12_serialization_roundtrip ⟨fun i => ⟨fun j => 8 * (i : Nat) + j⟩⟩ [7] []).2.1,
   (fq12_serialization_roundtrip ⟨fun i => ⟨fun j => 8 * (i : Nat) + j⟩⟩ [] [0, 1, 2]).2.2
     (by decide)⟩

/-! ### The exponentiation hint's wires (claim C4) -/

/-- `Fq12ExpGenerator` from `src/fields/fq12_target.rs`: the exponentiation
hint node with its captured gadgets and exponent wire. -/
structure Fq12ExpGeneratorW where
  x : Fq12TargetW
  offset : Fq12TargetW
  exp_val : TargetW
  output : Fq12TargetW

/-- `Fq12ExpGenerator::dependencies`: the limb wires of `x`'s 12 coefficients
(`self.x.coeffs.iter().flat_map(|coeff| coeff.target.value.limbs ...)`) —
and nothing else. -/
def Fq12ExpGeneratorW.dependencies (g : Fq12ExpGeneratorW) : List TargetW :=
  (List.finRange 12).flatMap fun i => (List.finRange 8).map fun j => (g.x.coeffs i).limbs j

/-- The wires whose concrete values `Fq12ExpGenerator::run_once` reads from
the witness: `x.to_vec()` and `offset.to_vec()` (via `get_u256_biguint`) and
the exponent wire (via `witness.get_target(self.exp_val)`). -/
def Fq12ExpGeneratorW.readWires (g : Fq12ExpGeneratorW) : List TargetW :=
  g.x.toVec ++ g.offset.toVec ++ [g.exp_val]

/-- A concrete exponentiation hint whose wires are pairwise distinct: `x` on
wires 0–95, `offset` on wires 96–191, the exponent on wire 192, the output on
wires 200–295. -/
def expGenCex : Fq12ExpGeneratorW where
  x := ⟨fun i => ⟨fun j => 8 * (i : Nat) + (j : Nat)⟩⟩
  offset := ⟨fun i => ⟨fun j => 96 + 8 * (i : Nat) + (j : Nat)⟩⟩
  exp_val := 192
  output := ⟨fun i => ⟨fun j => 200 + 8 * (i : Nat) + (j : Nat)⟩⟩

/-- C4 counterexample: the exponent wire is read by the hint's execution
routine but is not in the declared dependency set (the same holds for every
one of `offset`'s limb wires, e.g. wire 96). -/
theorem exp_dependencies_incomplete :
    expGenCex.exp_val ∈ expGenCex.readWires ∧
    expGenCex.exp_val ∉ expGenCex.dependencies ∧
    (96 : TargetW) ∈ expGenCex.readWires ∧
    (96 : TargetW) ∉ expGenCex.dependencies := by
  decide

/-- C4 amended: the declared dependency set is exactly the limb wires of
`x`'s 12 coefficients (so every declared dependency is indeed read), but the
execution routine additionally reads `offset`'s limb wires and the exponent
wire, which are not declared. -/
theorem exp_dependencies_are_x_limbs (g : Fq12ExpGeneratorW) :
    g.dependencies = g.x.toVec ∧
    g.readWires = g.x.toVec ++ g.offset.toVec ++ [g.exp_val] ∧
    ∀ w ∈ g.dependencies, w ∈ g.readWires := by
  refine ⟨rfl, rfl, ?_⟩
  intro w hw
  unfold Fq12ExpGeneratorW.readWires
  have hx : w ∈ g.x.toVec := hw
  simp [List.mem_append, hx]

/-! ### Conjugation at the coefficient-value level (claim C8) -/

/-- `Fq12Target::conjugate` at the level of coefficient values: the base-field
gadget `neg` (external) returns a gadget carrying the negated value, so the
output's coefficient values are the input's with entries 1, 3, 5, 7, 9, 11
negated in sequence, exactly as the source mutates the cloned array. -/
def conjugateVal (a : Fin 12 → Fq) : Fin 12 → Fq :=
  let c1 := Function.update a 1 (-(a 1))
  let c3 := Function.update c1 3 (-(c1 3))
  let c5 := Function.update c3 5 (-(c3 5))
  let c7 := Function.update c5 7 (-(c5 7))
  let c9 := Function.update c7 9 (-(c7 9))
  Function.update c9 11 (-(c9 11))

/-- C8: `conjugate` negates the coefficients at odd index positions
1, 3, 5, 7, 9, 11 and leaves the even positions 0, 2, 4, 6, 8, 10
unchanged. -/
theorem conjugate_negates_odd_coeffs (a : Fin 12 → Fq) (i : Fin 12) :
    conjugateVal a i = if (i : Nat) % 2 = 1 then -(a i) else a i := by
  fin_cases i <;> rfl

/-! ## Coefficient-value algebra (claims C1, C2, C3, C5)

Under the spec's base-field gadget contract, every `FqTarget` arithmetic
call (`add`, `sub`, `neg`, `mul`, `constant`) returns a gadget constrained
to carry the corresponding base-field operation's value, so a tower-gadget
operation acts on the 12 coefficient values as a plain function; the
definitions below translate `Fq12Target::mul` at that level. -/

/-- Array indexing `coeffs[n]` on a 12-coefficient array (always in bounds in
the source; an out-of-range index yields a junk value in place of the Rust
panic, and is never used). -/
def coeffAt (a : Fin 12 → Fq) (n : Nat) : Fq :=
  if h : n < 12 then a ⟨n, h⟩ else 0

/-- One accumulation step of `Fq12Target::mul`'s product loop:
`xy_coeffs[i + j] = xy_coeffs[i + j].add(coeff)` when the entry exists,
`xy_coeffs.push(coeff)` otherwise. -/
def pushOrAdd (l : List Fq) (k : Nat) (v : Fq) : List Fq :=
  if h : k < l.length then l.set k (l.get ⟨k, h⟩ + v) else l ++ [v]

/-- The `for i in 0..6 { for j in 0..6 { ... } }` accumulation of
`Fq12Target::mul` for one of the four product vectors (the source builds all
four in a single loop nest; the accumulations are independent). -/
def convList (x y : Nat → Fq) : List Fq :=
  (List.range 6).foldl (fun acc i =>
    (List.range 6).foldl (fun acc2 j => pushOrAdd acc2 (i + j) (x i * y j)) acc) []

/-- The 12 output coefficient values of `Fq12Target::mul`, translated line by
line from `src/fields/fq12_target.rs`: the four 6×6 schoolbook products over
the half-split, `a0b0_minus_a1b1` (`d`), `a0b1_plus_a1b0` (`s`), and the two
output loops with `const_nine = 9` and the `i = 5` special case. -/
def mulValList (a b : Fin 12 → Fq) : List Fq :=
  let A := coeffAt a
  let B := coeffAt b
  let a0b0 := convList (fun i => A i) (fun j => B j)
  let a0b1 := convList (fun i => A i) (fun j => B (j + 6))
  let a1b0 := convList (fun i => A (i + 6)) (fun j => B j)
  let a1b1 := convList (fun i => A (i + 6)) (fun j => B (j + 6))
  let d := (List.range 11).map fun i => a0b0.getD i 0 - a1b1.getD i 0
  let s := (List.range 11).map fun i => a0b1.getD i 0 + a1b0.getD i 0
  ((List.range 6).map fun i =>
    if i < 5 then d.getD i 0 + d.getD (i + 6) 0 * 9 + -(s.getD (i + 6) 0)
    else d.getD i 0) ++
  ((List.range 6).map fun i =>
    if i < 5 then s.getD i 0 + d.getD (i + 6) 0 + s.getD (i + 6) 0 * 9
    else s.getD i 0)

/-- `Fq12Target::mul` as a map on coefficient values. -/
def mulVal (a b : Fin 12 → Fq) : Fin 12 → Fq :=
  fun m => (mulValList a b).getD (m : Nat) 0

theorem range6_eq : List.range 6 = [0, 1, 2, 3, 4, 5] := rfl

theorem range11_eq : List.range 11 = [0, 1, 2, 3, 4, 5, 6, 7, 8, 9, 10] := rfl

set_option maxHeartbeats 1000000 in
/-- The product loop produces exactly the 11 schoolbook convolution
coefficients, accumulated in loop order. -/
theorem convList_eq (x y : Nat → Fq) :
    convList x y =
      [x 0 * y 0,
       x 0 * y 1 + x 1 * y 0,
       x 0 * y 2 + x 1 * y 1 + x 2 * y 0,
       x 0 * y 3 + x 1 * y 2 + x 2 * y 1 + x 3 * y 0,
       x 0 * y 4 + x 1 * y 3 + x 2 * y 2 + x 3 * y 1 + x 4 * y 0,
       x 0 * y 5 + x 1 * y 4 + x 2 * y 3 + x 3 * y 2 + x 4 * y 1 + x 5 * y 0,
       x 1 * y 5 + x 2 * y 4 + x 3 * y 3 + x 4 * y 2 + x 5 * y 1,
       x 2 * y 5 + x 3 * y 4 + x 4 * y 3 + x 5 * y 2,
       x 3 * y 5 + x 4 * y 4 + x 5 * y 3,
       x 4 * y 5 + x 5 * y 4,
       x 5 * y 5] := by
  simp [convList, range6_eq, pushOrAdd]

/-! ### The quadratic subfield and native tower multiplication -/

/-- Modelled from the spec: an element `a + b·u` of the quadratic subfield
(`u² = −1`), in terms of which the tower's reduction relation `w⁶ = 9 + u`
is expressed (the reduction constant 9 is the real part of the sextic
root's image). -/
@[ext]
structure Fq2 where
  re : Fq
  im : Fq

instance : Zero Fq2 := ⟨⟨0, 0⟩⟩

instance : One Fq2 := ⟨⟨1, 0⟩⟩

instance : Add Fq2 := ⟨fun p q => ⟨p.re + q.re, p.im + q.im⟩⟩

instance : Neg Fq2 := ⟨fun p => ⟨-p.re, -p.im⟩⟩

instance : Mul Fq2 := ⟨fun p q => ⟨p.re * q.re - p.im * q.im, p.re * q.im + p.im * q.re⟩⟩

@[simp] theorem Fq2.zero_re : (0 : Fq2).re = 0 := rfl

@[simp] theorem Fq2.zero_im : (0 : Fq2).im = 0 := rfl

@[simp] theorem Fq2.one_re : (1 : Fq2).re = 1 := rfl

@[simp] theorem Fq2.one_im : (1 : Fq2).im = 0 := rfl

@[simp] theorem Fq2.add_re (p q : Fq2) : (p + q).re = p.re + q.re := rfl

@[simp] theorem Fq2.add_im (p q : Fq2) : (p + q).im = p.im + q.im := rfl

@[simp] theorem Fq2.neg_re (p : Fq2) : (-p).re = -p.re := rfl

@[simp] theorem Fq2.neg_im (p : Fq2) : (-p).im = -p.im := rfl

@[simp] theorem Fq2.mul_re (p q : Fq2) : (p * q).re = p.re * q.re - p.im * q.im := rfl

@[simp] theorem Fq2.mul_im (p q : Fq2) : (p * q).im = p.re * q.im + p.im * q.re := rfl

instance : CommRing Fq2 where
  nsmul n p := ⟨n • p.re, n • p.im⟩
  nsmul_zero p := by ext <;> simp
  nsmul_succ n p := by ext <;> simp [add_nsmul] <;> ring
  zsmul n p := ⟨n • p.re, n • p.im⟩
  zsmul_zero' p := by ext <;> simp
  zsmul_succ' n p := by ext <;> simp [add_zsmul] <;> ring
  zsmul_neg' n p := by ext <;> simp [add_zsmul] <;> ring
  add_assoc p q r := by ext <;> simp <;> ring
  zero_add p := by ext <;> simp
  add_zero p := by ext <;> simp
  add_comm p q := by ext <;> simp <;> ring
  left_distrib p q r := by ext <;> simp <;> ring
  right_distrib p q r := by ext <;> simp <;> ring
  zero_mul p := by ext <;> simp
  mul_zero p := by ext <;> simp
  mul_assoc p q r := by ext <;> simp <;> ring
  one_mul p := by ext <;> simp
  mul_one p := by ext <;> simp
  mul_comm p q := by ext <;> simp <;> ring
  neg_add_cancel p := by ext <;> simp

/-- Modelled from the spec: coefficient `k` of the schoolbook product of two
degree-5 polynomials over the quadratic subfield. -/
def convAt (X Y : Nat → Fq2) (k : Nat) : Fq2 :=
  ((List.range 6).map fun i =>
    ((List.range 6).map fun j => if i + j = k then X i * Y j else 0).sum).sum

/-- The image of the sextic root under the tower's reduction relation:
`w⁶ = ξ = 9 + u`. -/
def xiFq2 : Fq2 := ⟨9, 1⟩

/-- Modelled from the spec: native tower multiplication on 6 quadratic
coefficients: convolve, then reduce once by `w^(6+t) = ξ·w^t` (the result
is supported on indices 0–5, and `convAt _ _ 11 = 0`, so coefficient 5 is
plain). -/
def mul6 (X Y : Nat → Fq2) : Nat → Fq2 :=
  fun k => if k < 6 then convAt X Y k + xiFq2 * convAt X Y (k + 6) else 0

/-- The 12 base-field coefficients of the `MyFq12` layout viewed as 6
quadratic coefficients: the coefficient of `w^i` is `a[i] + a[i+6]·u`. -/
def toFq2fun (a : Fin 12 → Fq) : Nat → Fq2 :=
  fun i => ⟨coeffAt a i, coeffAt a (i + 6)⟩

/-- Back from 6 quadratic coefficients to the 12-coefficient layout. -/
def fromFq2fun (F : Nat → Fq2) : Fin 12 → Fq :=
  fun m => if (m : Nat) < 6 then (F (m : Nat)).re else (F ((m : Nat) - 6)).im

/-- Modelled from the spec: native `Fq12` multiplication (the external field
library's, assumed correct) in the `MyFq12` coefficient basis: multiplication
in the quotient ring `Fq2[w]/(w⁶ − ξ)`. -/
def nativeMul (a b : Fin 12 → Fq) : Fin 12 → Fq :=
  fromFq2fun (mul6 (toFq2fun a) (toFq2fun b))

/-- The native product's 12 coefficients as a list (real parts of `w⁰..w⁵`,
then imaginary parts). -/
def nativeMulList (a b : Fin 12 → Fq) : List Fq :=
  ((List.range 6).map fun k => (mul6 (toFq2fun a) (toFq2fun b) k).re) ++
  ((List.range 6).map fun k => (mul6 (toFq2fun a) (toFq2fun b) k).im)

/-- The 12 coefficients of the native multiplicative identity (`Fq12::ONE`). -/
def oneFq12 : Fin 12 → Fq := fun m => if (m : Nat) = 0 then 1 else 0

/-- The 12 coefficients of the native additive identity (`Fq12::zero()`). -/
def zeroFq12 : Fin 12 → Fq := fun _ => 0

set_option maxHeartbeats 2000000 in
/-- The translated `Fq12Target::mul` output list is the native product,
coefficient by coefficient. -/
theorem mulValList_eq_nativeMulList (a b : Fin 12 → Fq) :
    mulValList a b = nativeMulList a b := by
  simp only [mulValList, nativeMulList, convList_eq, mul6, convAt, toFq2fun, xiFq2,
    range6_eq, range11_eq, List.map_cons, List.map_nil, List.sum_cons, List.sum_nil,
    List.getD_cons_zero, List.getD_cons_succ, List.cons_append, List.nil_append,
    Fq2.mul_re, Fq2.mul_im, Fq2.add_re, Fq2.add_im]
  norm_num [coeffAt]
  repeat' apply And.intro
  all_goals ring

theorem nativeMul_getD (a b : Fin 12 → Fq) (m : Fin 12) :
    nativeMul a b m = (nativeMulList a b).getD (m : Nat) 0 := by
  fin_cases m <;> rfl

/-- `Fq12Target::mul` computes exactly native tower multiplication on the
coefficient values. -/
theorem mulVal_eq_nativeMul (a b : Fin 12 → Fq) : mulVal a b = nativeMul a b := by
  funext m
  rw [show mulVal a b m = (mulValList a b).getD (m : Nat) 0 from rfl,
      mulValList_eq_nativeMulList, ← nativeMul_getD]

/-- The spec's schoolbook convolution product
`xy[k] = Σ_{i+j=k} x[i]·y[j]` over the 6×6 grid, written as in the spec (for
comparison with the translated accumulation loop). -/
def specConv (x y : Nat → Fq) (k : Nat) : Fq :=
  ((List.range 6).map fun i =>
    ((List.range 6).map fun j => if i + j = k then x i * y j else 0).sum).sum

/-- The spec's `d = a0b0 − a1b1` over the 6/6 half-split. -/
def specD (a b : Fin 12 → Fq) (k : Nat) : Fq :=
  specConv (fun i => coeffAt a i) (fun j => coeffAt b j) k
    - specConv (fun i => coeffAt a (i + 6)) (fun j => coeffAt b (j + 6)) k

/-- The spec's `s = a0b1 + a1b0` over the 6/6 half-split. -/
def specS (a b : Fin 12 → Fq) (k : Nat) : Fq :=
  specConv (fun i => coeffAt a i) (fun j => coeffAt b (j + 6)) k
    + specConv (fun i => coeffAt a (i + 6)) (fun j => coeffAt b j) k

set_option maxHeartbeats 1000000 in
theorem convList_getD_spec (x y : Nat → Fq) (k : Nat) (h : k < 11) :
    (convList x y).getD k 0 = specConv x y k := by
  interval_cases k <;>
  · rw [convList_eq]
    simp only [List.getD_cons_zero, List.getD_cons_succ, specConv, range6_eq,
      List.map_cons, List.map_nil, List.sum_cons, List.sum_nil]
    norm_num
    try ring

/-- The 12 output coefficients as the spec's claim words them: `d`/`s` folded
with reduction constant 9, `out[5]` and `out[11]` plain. -/
def specOutList (a b : Fin 12 → Fq) : List Fq :=
  ((List.range 6).map fun i =>
    if i < 5 then specD a b i + 9 * specD a b (i + 6) - specS a b (i + 6)
    else specD a b i) ++
  ((List.range 6).map fun i =>
    if i < 5 then specS a b i + specD a b (i + 6) + 9 * specS a b (i + 6)
    else specS a b i)

set_option maxHeartbeats 2000000 in
/-- The translated multiplication output list matches the spec's formula list
entry by entry. -/
theorem mulValList_eq_specOutList (a b : Fin 12 → Fq) :
    mulValList a b = specOutList a b := by
  simp only [mulValList, specOutList, convList_eq, specConv, specD, specS, range6_eq,
    range11_eq, List.map_cons, List.map_nil, List.sum_cons, List.sum_nil,
    List.getD_cons_zero, List.getD_cons_succ, List.cons_append, List.nil_append]
  norm_num
  repeat' apply And.intro
  all_goals ring

set_option maxRecDepth 4096 in
/-- C1: `Fq12Target::mul` computes the four 11-coefficient schoolbook
convolutions over the 6/6 half-split, forms `d = a0b0 − a1b1` and
`s = a0b1 + a1b0`, and folds them with reduction constant 9:
`out[i] = d[i] + 9·d[i+6] − s[i+6]` and `out[i+6] = s[i] + d[i+6] + 9·s[i+6]`
for `i < 5`, with `out[5] = d[5]` and `out[11] = s[5]`; and the output equals
the native product coefficient-wise, so connecting
`mul(constant a, constant b)` against `constant(a*b)` asks only for
coefficient equalities that hold identically — the resulting constraint
system is satisfied by the canonical (forward-evaluation) assignment. -/
theorem fq12_mul_formula_and_correctness (a b : Fin 12 → Fq) :
    (∀ i : Fin 5,
      mulVal a b ⟨(i : Nat), by have := i.isLt; omega⟩
        = specD a b (i : Nat) + 9 * specD a b ((i : Nat) + 6)
            - specS a b ((i : Nat) + 6) ∧
      mulVal a b ⟨(i : Nat) + 6, by have := i.isLt; omega⟩
        = specS a b (i : Nat) + specD a b ((i : Nat) + 6)
            + 9 * specS a b ((i : Nat) + 6)) ∧
    mulVal a b ⟨5, by omega⟩ = specD a b 5 ∧
    mulVal a b ⟨11, by omega⟩ = specS a b 5 ∧
    mulVal a b = nativeMul a b := by
  have hout : ∀ m : Fin 12, mulVal a b m = (specOutList a b).getD (m : Nat) 0 := by
    intro m
    rw [show mulVal a b m = (mulValList a b).getD (m : Nat) 0 from rfl,
        mulValList_eq_specOutList]
  refine ⟨?_, ?_, ?_, mulVal_eq_nativeMul a b⟩
  · intro i
    fin_cases i <;> constructor <;>
    · rw [hout]
      simp only [specOutList, range6_eq, List.map_cons, List.map_nil, List.cons_append,
        List.nil_append, List.getD_cons_zero, List.getD_cons_succ]
      norm_num
  · rw [hout]
    simp only [specOutList, range6_eq, List.map_cons, List.map_nil, List.cons_append,
      List.nil_append, List.getD_cons_zero, List.getD_cons_succ]
    norm_num
  · rw [hout]
    simp only [specOutList, range6_eq, List.map_cons, List.map_nil, List.cons_append,
      List.nil_append, List.getD_cons_zero, List.getD_cons_succ]
    norm_num

/-! ### Ring laws of the native multiplication -/

theorem convAt_congr (X X' Y Y' : Nat → Fq2) (hX : ∀ i, i < 6 → X i = X' i)
    (hY : ∀ j, j < 6 → Y j = Y' j) (k : Nat) : convAt X Y k = convAt X' Y' k := by
  unfold convAt
  rw [range6_eq]
  simp only [List.map_cons, List.map_nil, List.sum_cons, List.sum_nil]
  rw [hX 0 (by omega), hX 1 (by omega), hX 2 (by omega), hX 3 (by omega),
      hX 4 (by omega), hX 5 (by omega), hY 0 (by omega), hY 1 (by omega),
      hY 2 (by omega), hY 3 (by omega), hY 4 (by omega), hY 5 (by omega)]

theorem mul6_congr (X X' Y Y' : Nat → Fq2) (hX : ∀ i, i < 6 → X i = X' i)
    (hY : ∀ j, j < 6 → Y j = Y' j) : mul6 X Y = mul6 X' Y' := by
  funext k
  unfold mul6
  rw [convAt_congr X X' Y Y' hX hY k, convAt_congr X X' Y Y' hX hY (k + 6)]

set_option maxHeartbeats 1000000 in
theorem mul6_comm (X Y : Nat → Fq2) : mul6 X Y = mul6 Y X := by
  funext k
  unfold mul6
  by_cases hk : k < 6
  · rw [if_pos hk, if_pos hk]
    interval_cases k <;>
    · simp only [convAt, range6_eq, List.map_cons, List.map_nil, List.sum_cons,
        List.sum_nil]
      norm_num
      ring
  · rw [if_neg hk, if_neg hk]

set_option maxHeartbeats 2000000 in
set_option maxRecDepth 10000 in
theorem mul6_assoc (X Y Z : Nat → Fq2) :
    mul6 (mul6 X Y) Z = mul6 X (mul6 Y Z) := by
  funext k
  by_cases hk : k < 6
  · have hL : mul6 (mul6 X Y) Z k =
        (if k < 6 then convAt (mul6 X Y) Z k + xiFq2 * convAt (mul6 X Y) Z (k + 6) else 0) :=
      rfl
    have hR : mul6 X (mul6 Y Z) k =
        (if k < 6 then convAt X (mul6 Y Z) k + xiFq2 * convAt X (mul6 Y Z) (k + 6) else 0) :=
      rfl
    rw [hL, hR, if_pos hk, if_pos hk]
    interval_cases k <;>
    · simp only [convAt, mul6, range6_eq, List.map_cons, List.map_nil, List.sum_cons,
        List.sum_nil]
      norm_num
      ring
  · show (if k < 6 then _ else 0) = (if k < 6 then _ else 0)
    rw [if_neg hk, if_neg hk]

theorem toFq2fun_fromFq2fun (F : Nat → Fq2) (i : Nat) (h : i < 6) :
    toFq2fun (fromFq2fun F) i = F i := by
  have h12 : i < 12 := by omega
  have h6 : i + 6 < 12 := by omega
  unfold toFq2fun coeffAt
  rw [dif_pos h12, dif_pos h6]
  show (⟨fromFq2fun F ⟨i, h12⟩, fromFq2fun F ⟨i + 6, h6⟩⟩ : Fq2) = F i
  unfold fromFq2fun
  simp only
  rw [if_pos (show ((⟨i, h12⟩ : Fin 12) : Nat) < 6 from h),
      if_neg (show ¬ ((⟨i + 6, h6⟩ : Fin 12) : Nat) < 6 by show ¬ i + 6 < 6; omega)]
  show (⟨(F i).re, (F (i + 6 - 6)).im⟩ : Fq2) = F i
  rw [show i + 6 - 6 = i from by omega]

set_option maxHeartbeats 400000 in
theorem mul6_one_left (Y : Nat → Fq2) (k : Nat) :
    mul6 (toFq2fun oneFq12) Y k = if k < 6 then Y k else 0 := by
  unfold mul6
  by_cases hk : k < 6
  · rw [if_pos hk, if_pos hk]
    interval_cases k <;>
    · simp only [convAt, toFq2fun, oneFq12, coeffAt, range6_eq, List.map_cons,
        List.map_nil, List.sum_cons, List.sum_nil]
      norm_num
      ext <;> simp
  · rw [if_neg hk, if_neg hk]

set_option maxHeartbeats 400000 in
theorem mul6_zero_left (Y : Nat → Fq2) (k : Nat) :
    mul6 (toFq2fun zeroFq12) Y k = 0 := by
  unfold mul6
  by_cases hk : k < 6
  · rw [if_pos hk]
    interval_cases k <;>
    · simp only [convAt, toFq2fun, zeroFq12, coeffAt, range6_eq, List.map_cons,
        List.map_nil, List.sum_cons, List.sum_nil]
      norm_num
      ext <;> simp
  · rw [if_neg hk]

theorem nativeMul_comm (a b : Fin 12 → Fq) : nativeMul a b = nativeMul b a := by
  unfold nativeMul
  rw [mul6_comm]

theorem nativeMul_assoc (a b c : Fin 12 → Fq) :
    nativeMul (nativeMul a b) c = nativeMul a (nativeMul b c) := by
  unfold nativeMul
  rw [mul6_congr (toFq2fun (fromFq2fun (mul6 (toFq2fun a) (toFq2fun b))))
        (mul6 (toFq2fun a) (toFq2fun b)) (toFq2fun c) (toFq2fun c)
        (fun i hi => toFq2fun_fromFq2fun _ i hi) (fun _ _ => rfl),
      mul6_congr (toFq2fun a) (toFq2fun a)
        (toFq2fun (fromFq2fun (mul6 (toFq2fun b) (toFq2fun c))))
        (mul6 (toFq2fun b) (toFq2fun c))
        (fun _ _ => rfl) (fun j hj => toFq2fun_fromFq2fun _ j hj),
      mul6_assoc]

theorem nativeMul_one_left (z : Fin 12 → Fq) : nativeMul oneFq12 z = z := by
  funext m
  unfold nativeMul fromFq2fun
  by_cases hm : (m : Nat) < 6
  · rw [if_pos hm, mul6_one_left, if_pos hm]
    show coeffAt z (m : Nat) = z m
    unfold coeffAt
    rw [dif_pos (by omega)]
  · rw [if_neg hm, mul6_one_left, if_pos (by omega : (m : Nat) - 6 < 6)]
    show coeffAt z ((m : Nat) - 6 + 6) = z m
    unfold coeffAt
    rw [show (m : Nat) - 6 + 6 = (m : Nat) from by omega, dif_pos (by omega)]

theorem nativeMul_one_right (z : Fin 12 → Fq) : nativeMul z oneFq12 = z := by
  rw [nativeMul_comm, nativeMul_one_left]

theorem nativeMul_zero_left (z : Fin 12 → Fq) : nativeMul zeroFq12 z = zeroFq12 := by
  funext m
  unfold nativeMul fromFq2fun
  by_cases hm : (m : Nat) < 6
  · rw [if_pos hm, mul6_zero_left]
    rfl
  · rw [if_neg hm, mul6_zero_left]
    rfl

theorem nativeMul_inverse_unique (x y out : Fin 12 → Fq)
    (hy : nativeMul x y = oneFq12) (hout : nativeMul x out = oneFq12) : y = out := by
  calc y = nativeMul y oneFq12 := (nativeMul_one_right y).symm
    _ = nativeMul y (nativeMul x out) := by rw [hout]
    _ = nativeMul (nativeMul y x) out := (nativeMul_assoc y x out).symm
    _ = nativeMul (nativeMul x y) out := by rw [nativeMul_comm y x]
    _ = nativeMul oneFq12 out := by rw [hy]
    _ = out := nativeMul_one_left out

/-! ## Hint execution (claims C2, C3, C5) -/

/-- Modelled from the spec: native host exponentiation `x.pow([e])` of the
external field library: the `e`-th multiplicative power. -/
def nativePow (x : Fin 12 → Fq) : Nat → (Fin 12 → Fq)
  | 0 => oneFq12
  | e + 1 => nativeMul (nativePow x e) x

/-- `Fq12ExpGenerator::run_once` at the value level: read `x`'s and
`offset`'s concrete coefficients and the 64-bit scalar at the exponent wire
(`witness.get_target(self.exp_val).to_canonical_u64()`), compute
`offset * x.pow(&[exp_val])` natively, and write the result into the
output's witness slots (the returned values). -/
def fq12ExpRunOnce (xv offv : Fin 12 → Fq) (e : Nat) : Fin 12 → Fq :=
  nativeMul offv (nativePow xv e)

open Classical in
/-- Modelled from the spec: the host inversion routine (`Fq12::inverse()` of
the external field library): it returns the true multiplicative inverse of
its input, and fails (`None`, which the generator `unwrap`s — a fatal
witness-generation failure) exactly on the additive identity. -/
noncomputable def hostInverse (x : Fin 12 → Fq) : Option (Fin 12 → Fq) :=
  if x = zeroFq12 then none
  else some (if h : ∃ y, nativeMul x y = oneFq12 then h.choose else zeroFq12)

/-- `Fq12InverseGenerator::run_once` at the value level: read `x`'s concrete
coefficients, invert natively (`x.inverse().unwrap()`), and write the 12
result coefficients into the output's witness slots. -/
noncomputable def fq12InvRunOnce (xv : Fin 12 → Fq) : Option (Fin 12 → Fq) :=
  hostInverse xv

/-- C5: the inverse hint's execution fails fatally during witness generation
(propagated from the host inversion routine) exactly when the concrete
witness value of its input is the additive identity — there is no
constraint-level failure path in `run_once`; on every nonzero input it
completes and the value it writes is the multiplicative inverse of the
input: `nativeMul xv z = 1` for every invertible `xv` (in the native field
every nonzero value is invertible, so this covers the claim's "every
nonzero input"). -/
theorem inv_hint_fails_iff_zero (xv : Fin 12 → Fq) :
    (fq12InvRunOnce xv = none ↔ xv = zeroFq12) ∧
    (xv ≠ zeroFq12 →
      ∃ z, fq12InvRunOnce xv = some z ∧
        ∀ yv : Fin 12 → Fq, nativeMul xv yv = oneFq12 →
          nativeMul xv z = oneFq12) := by
  constructor
  · unfold fq12InvRunOnce hostInverse
    by_cases hx : xv = zeroFq12
    · simp [hx]
    · simp [hx]
  · intro hx
    unfold fq12InvRunOnce hostInverse
    rw [if_neg hx]
    refine ⟨_, rfl, ?_⟩
    intro yv hinv
    have hex : ∃ y, nativeMul xv y = oneFq12 := ⟨yv, hinv⟩
    rw [dif_pos hex]
    exact hex.choose_spec

/-- Witness for C5 at the concrete nonzero input `1` (whose inverse is `1`)
and the zero input. -/
theorem inv_hint_fails_iff_zero_witness :
    (fq12InvRunOnce zeroFq12 = none) ∧
    oneFq12 ≠ zeroFq12 ∧
    ∃ z, fq12InvRunOnce oneFq12 = some z ∧ nativeMul oneFq12 z = oneFq12 := by
  have hne : oneFq12 ≠ zeroFq12 := fun h => absurd (congrFun h 0) (by decide)
  obtain ⟨z, hz, hcorrect⟩ := (inv_hint_fails_iff_zero oneFq12).2 hne
  exact ⟨(inv_hint_fails_iff_zero zeroFq12).1.mpr rfl, hne,
    z, hz, hcorrect oneFq12 (nativeMul_one_left oneFq12)⟩

/-! ## The circuit builder (structural claims C2, C3) -/

/-- One constraint event emitted into the builder. Modelled from the spec:
each base-field gadget arithmetic call (`FqTarget::constant`, `add`, `sub`,
`neg`, `mul`) allocates a fresh coefficient gadget constrained to carry the
operation's value, and `connect_nonnative` asserts equality of two
coefficient gadgets. Events carry the coefficient-gadget ids involved. -/
inductive CEvent where
  | constC (out : Nat) (v : Fq)
  | addC (out a b : Nat)
  | subC (out a b : Nat)
  | negC (out a : Nat)
  | mulC (out a b : Nat)
  | connectC (a b : Nat)

/-- A hint node registered with `builder.add_simple_generator`: the inverse
or exponentiation generator with its captured gadget ids. -/
inductive GEvent where
  | invGen (x out : Fin 12 → Nat)
  | expGen (x offset : Fin 12 → Nat) (exp_val : Nat) (out : Fin 12 → Nat)

/-- The builder state: fresh-gadget counter, emitted constraints, registered
hint nodes (the spec's single mutable builder threaded through every call). -/
structure BState where
  nextId : Nat
  constraints : List CEvent
  gens : List GEvent

/-- The state-passing circuit-construction monad. -/
abbrev BuilderM : Type → Type := StateM BState

def fqEmptyB : BuilderM Nat := fun s =>
  (s.nextId, ⟨s.nextId + 1, s.constraints, s.gens⟩)

def fqConstantB (v : Fq) : BuilderM Nat := fun s =>
  (s.nextId, ⟨s.nextId + 1, s.constraints ++ [CEvent.constC s.nextId v], s.gens⟩)

def fqAddB (a b : Nat) : BuilderM Nat := fun s =>
  (s.nextId, ⟨s.nextId + 1, s.constraints ++ [CEvent.addC s.nextId a b], s.gens⟩)

def fqSubB (a b : Nat) : BuilderM Nat := fun s =>
  (s.nextId, ⟨s.nextId + 1, s.constraints ++ [CEvent.subC s.nextId a b], s.gens⟩)

def fqNegB (a : Nat) : BuilderM Nat := fun s =>
  (s.nextId, ⟨s.nextId + 1, s.constraints ++ [CEvent.negC s.nextId a], s.gens⟩)

def fqMulB (a b : Nat) : BuilderM Nat := fun s =>
  (s.nextId, ⟨s.nextId + 1, s.constraints ++ [CEvent.mulC s.nextId a b], s.gens⟩)

def fqConnectB (a b : Nat) : BuilderM Unit := fun s =>
  ((), ⟨s.nextId, s.constraints ++ [CEvent.connectC a b], s.gens⟩)

def addGeneratorB (g : GEvent) : BuilderM Unit := fun s =>
  ((), ⟨s.nextId, s.constraints, s.gens ++ [g]⟩)

/-- Indexing `coeffs[n]` on a tower gadget's 12 coefficient ids. -/
def idAt (g : Fin 12 → Nat) (n : Nat) : Nat :=
  if h : n < 12 then g ⟨n, h⟩ else 0

/-- `Fq12Target::empty`: allocate 12 fresh unconstrained coefficient gadgets. -/
def fq12EmptyB : BuilderM (Fin 12 → Nat) := do
  let c0 ← fqEmptyB
  let c1 ← fqEmptyB
  let c2 ← fqEmptyB
  let c3 ← fqEmptyB
  let c4 ← fqEmptyB
  let c5 ← fqEmptyB
  let c6 ← fqEmptyB
  let c7 ← fqEmptyB
  let c8 ← fqEmptyB
  let c9 ← fqEmptyB
  let c10 ← fqEmptyB
  let c11 ← fqEmptyB
  pure fun i => [c0, c1, c2, c3, c4, c5, c6, c7, c8, c9, c10, c11].getD (i : Nat) 0

/-- `Fq12Target::constant`: lift the 12 native coefficients into constants. -/
def fq12ConstantB (c : Fin 12 → Fq) : BuilderM (Fin 12 → Nat) := do
  let l ← (List.range 12).mapM fun i => fqConstantB (coeffAt c i)
  pure fun i => l.getD (i : Nat) 0

/-- `Fq12Target::connect`: 12 coefficient-wise equality constraints. -/
def fq12ConnectB (x y : Fin 12 → Nat) : BuilderM Unit :=
  (List.range 12).forM fun i => fqConnectB (idAt x i) (idAt y i)

/-- The builder-side accumulation step of `Fq12Target::mul`'s product loop. -/
def pushOrAddB (l : List Nat) (k : Nat) (g : Nat) : BuilderM (List Nat) :=
  if h : k < l.length then do
    let acc ← fqAddB (l.get ⟨k, h⟩) g
    pure (l.set k acc)
  else pure (l ++ [g])

/-- The builder-side `for i in 0..6 { for j in 0..6 { ... } }` product loop
for one of the four product vectors. -/
def convListB (x y : Nat → Nat) : BuilderM (List Nat) :=
  (List.range 6).foldlM (fun acc i =>
    (List.range 6).foldlM (fun acc2 j => do
      let c ← fqMulB (x i) (y j)
      pushOrAddB acc2 (i + j) c) acc) []

/-- `Fq12Target::mul` in the builder, translated from
`src/fields/fq12_target.rs` (the source interleaves the four product
accumulations in one loop nest; they accumulate independently). -/
def fq12MulB (a b : Fin 12 → Nat) : BuilderM (Fin 12 → Nat) := do
  let a0b0 ← convListB (fun i => idAt a i) (fun j => idAt b j)
  let a0b1 ← convListB (fun i => idAt a i) (fun j => idAt b (j + 6))
  let a1b0 ← convListB (fun i => idAt a (i + 6)) (fun j => idAt b j)
  let a1b1 ← convListB (fun i => idAt a (i + 6)) (fun j => idAt b (j + 6))
  let d ← (List.range 11).mapM fun i => fqSubB (a0b0.getD i 0) (a1b1.getD i 0)
  let s ← (List.range 11).mapM fun i => fqAddB (a0b1.getD i 0) (a1b0.getD i 0)
  let const_nine ← fqConstantB 9
  let out1 ← (List.range 6).mapM fun i =>
    if i < 5 then do
      let term1 ← fqMulB (d.getD (i + 6) 0) const_nine
      let term2 ← fqNegB (s.getD (i + 6) 0)
      let term01 ← fqAddB (d.getD i 0) term1
      fqAddB term01 term2
    else pure (d.getD i 0)
  let out2 ← (List.range 6).mapM fun i =>
    if i < 5 then do
      let term2 ← fqMulB (s.getD (i + 6) 0) const_nine
      let term01 ← fqAddB (s.getD i 0) (d.getD (i + 6) 0)
      fqAddB term01 term2
    else pure (s.getD i 0)
  pure fun m => (out1 ++ out2).getD (m : Nat) 0

/-- `Fq12Target::inv`, translated from `src/fields/fq12_target.rs`: allocate
a fresh output, register the inverse hint, then constrain
`x * output == constant(1)` via `mul` and `connect`. -/
def fq12InvB (x : Fin 12 → Nat) : BuilderM (Fin 12 → Nat) := do
  let inv ← fq12EmptyB
  addGeneratorB (GEvent.invGen x inv)
  let one ← fq12ConstantB oneFq12
  let x_mul_inv ← fq12MulB x inv
  fq12ConnectB x_mul_inv one
  pure inv

/-- `Fq12Target::pow`, translated from `src/fields/fq12_target.rs`: allocate
a fresh output and register the exponentiation hint — nothing else. -/
def fq12PowB (x offset : Fin 12 → Nat) (exp_val : Nat) : BuilderM (Fin 12 → Nat) := do
  let pow ← fq12EmptyB
  addGeneratorB (GEvent.expGen x offset exp_val pow)
  pure pow

theorem bind_run {α β : Type} (m : BuilderM α) (f : α → BuilderM β) (s : BState) :
    (m >>= f).run s = (f (m.run s).1).run (m.run s).2 := rfl

theorem pure_run {α : Type} (a : α) (s : BState) :
    (pure a : BuilderM α).run s = (a, s) := rfl

theorem fqEmptyB_run (s : BState) :
    fqEmptyB.run s = (s.nextId, ⟨s.nextId + 1, s.constraints, s.gens⟩) := rfl

theorem addGeneratorB_run (g : GEvent) (s : BState) :
    (addGeneratorB g).run s = ((), ⟨s.nextId, s.constraints, s.gens ++ [g]⟩) := rfl

/-- A builder computation that never registers a hint node. -/
def PreservesGens {α : Type} (m : BuilderM α) : Prop :=
  ∀ s : BState, ((m.run s).2).gens = s.gens

theorem pg_pure {α : Type} (a : α) : PreservesGens (pure a : BuilderM α) := fun _ => rfl

theorem pg_bind {α β : Type} (m : BuilderM α) (f : α → BuilderM β)
    (hm : PreservesGens m) (hf : ∀ a, PreservesGens (f a)) :
    PreservesGens (m >>= f) := by
  intro s
  rw [bind_run, hf (m.run s).1 (m.run s).2, hm s]

theorem pg_fqConstantB (v : Fq) : PreservesGens (fqConstantB v) := fun _ => rfl

theorem pg_fqAddB (a b : Nat) : PreservesGens (fqAddB a b) := fun _ => rfl

theorem pg_fqSubB (a b : Nat) : PreservesGens (fqSubB a b) := fun _ => rfl

theorem pg_fqNegB (a : Nat) : PreservesGens (fqNegB a) := fun _ => rfl

theorem pg_fqMulB (a b : Nat) : PreservesGens (fqMulB a b) := fun _ => rfl

theorem pg_fqConnectB (a b : Nat) : PreservesGens (fqConnectB a b) := fun _ => rfl

theorem pg_foldlM {α β : Type} (f : β → α → BuilderM β)
    (hf : ∀ acc x, PreservesGens (f acc x)) :
    ∀ (l : List α) (init : β), PreservesGens (l.foldlM f init) := by
  intro l
  induction l with
  | nil => intro init _; rfl
  | cons x xs ih =>
      intro init
      rw [List.foldlM_cons]
      exact pg_bind _ _ (hf init x) fun b => ih b

theorem pg_mapM {α β : Type} (f : α → BuilderM β) (hf : ∀ x, PreservesGens (f x)) :
    ∀ l : List α, PreservesGens (l.mapM f) := by
  intro l
  induction l with
  | nil => intro _; rfl
  | cons x xs ih =>
      rw [List.mapM_cons]
      exact pg_bind _ _ (hf x) fun b => pg_bind _ _ ih fun bs => pg_pure _

theorem pg_forM {α : Type} (f : α → BuilderM Unit) (hf : ∀ x, PreservesGens (f x)) :
    ∀ l : List α, PreservesGens (l.forM f) := by
  intro l
  induction l with
  | nil => intro _; rfl
  | cons x xs ih =>
      show PreservesGens (f x >>= fun _ => xs.forM f)
      exact pg_bind _ _ (hf x) fun _ => ih

theorem pg_pushOrAddB (l : List Nat) (k g : Nat) : PreservesGens (pushOrAddB l k g) := by
  unfold pushOrAddB
  split
  · exact pg_bind _ _ (pg_fqAddB _ _) fun _ => pg_pure _
  · exact pg_pure _

theorem pg_convListB (x y : Nat → Nat) : PreservesGens (convListB x y) := by
  unfold convListB
  apply pg_foldlM
  intro acc i
  apply pg_foldlM
  intro acc2 j
  exact pg_bind _ _ (pg_fqMulB _ _) fun c => pg_pushOrAddB _ _ _

theorem pg_fq12ConstantB (c : Fin 12 → Fq) : PreservesGens (fq12ConstantB c) := by
  unfold fq12ConstantB
  exact pg_bind _ _ (pg_mapM _ (fun i => pg_fqConstantB _) _) fun l => pg_pure _

theorem pg_fq12ConnectB (x y : Fin 12 → Nat) : PreservesGens (fq12ConnectB x y) := by
  unfold fq12ConnectB
  exact pg_forM _ (fun i => pg_fqConnectB _ _) _

theorem pg_fq12MulB (a b : Fin 12 → Nat) : PreservesGens (fq12MulB a b) := by
  unfold fq12MulB
  refine pg_bind _ _ (pg_convListB _ _) fun a0b0 => ?_
  refine pg_bind _ _ (pg_convListB _ _) fun a0b1 => ?_
  refine pg_bind _ _ (pg_convListB _ _) fun a1b0 => ?_
  refine pg_bind _ _ (pg_convListB _ _) fun a1b1 => ?_
  refine pg_bind _ _ (pg_mapM _ (fun i => pg_fqSubB _ _) _) fun d => ?_
  refine pg_bind _ _ (pg_mapM _ (fun i => pg_fqAddB _ _) _) fun s => ?_
  refine pg_bind _ _ (pg_fqConstantB _) fun n9 => ?_
  refine pg_bind _ _ (pg_mapM _ (fun i => ?_) _) fun out1 => ?_
  · split
    · exact pg_bind _ _ (pg_fqMulB _ _) fun t1 =>
        pg_bind _ _ (pg_fqNegB _) fun t2 =>
          pg_bind _ _ (pg_fqAddB _ _) fun t01 => pg_fqAddB _ _
    · exact pg_pure _
  refine pg_bind _ _ (pg_mapM _ (fun i => ?_) _) fun out2 => pg_pure _
  split
  · exact pg_bind _ _ (pg_fqMulB _ _) fun t2 =>
      pg_bind _ _ (pg_fqAddB _ _) fun t01 => pg_fqAddB _ _
  · exact pg_pure _

theorem fq12EmptyB_state (s : BState) :
    (fq12EmptyB.run s).2 = ⟨s.nextId + 12, s.constraints, s.gens⟩ := by
  simp only [fq12EmptyB, bind_run, pure_run, fqEmptyB_run]
  try norm_num

theorem fq12EmptyB_result (s : BState) (i : Fin 12) :
    (fq12EmptyB.run s).1 i = s.nextId + (i : Nat) := by
  fin_cases i <;>
  · simp only [fq12EmptyB, bind_run, pure_run, fqEmptyB_run, List.getD_cons_zero,
      List.getD_cons_succ]
    try norm_num

theorem fq12PowB_run (x off : Fin 12 → Nat) (ew : Nat) (s : BState) :
    ((fq12PowB x off ew).run s).2.constraints = s.constraints ∧
    ((fq12PowB x off ew).run s).2.gens
      = s.gens ++ [GEvent.expGen x off ew ((fq12PowB x off ew).run s).1] ∧
    ∀ i : Fin 12, ((fq12PowB x off ew).run s).1 i = s.nextId + (i : Nat) := by
  have hres : ((fq12PowB x off ew).run s).1 = (fq12EmptyB.run s).1 := by
    simp only [fq12PowB, bind_run, pure_run]
  have hstate : ((fq12PowB x off ew).run s).2
      = ⟨s.nextId + 12, s.constraints,
          s.gens ++ [GEvent.expGen x off ew (fq12EmptyB.run s).1]⟩ := by
    simp only [fq12PowB, bind_run, pure_run, addGeneratorB_run, fq12EmptyB_state]
  refine ⟨?_, ?_, ?_⟩
  · rw [hstate]
  · rw [hstate, hres]
  · intro i
    rw [hres]
    exact fq12EmptyB_result s i

theorem fq12InvB_run (x : Fin 12 → Nat) (s : BState) :
    ((fq12InvB x).run s).2.gens
      = s.gens ++ [GEvent.invGen x ((fq12InvB x).run s).1] ∧
    ∀ i : Fin 12, ((fq12InvB x).run s).1 i = s.nextId + (i : Nat) := by
  have hres : ((fq12InvB x).run s).1 = (fq12EmptyB.run s).1 := by
    simp only [fq12InvB, bind_run, pure_run]
  have hgens : ((fq12InvB x).run s).2.gens
      = s.gens ++ [GEvent.invGen x (fq12EmptyB.run s).1] := by
    simp only [fq12InvB, bind_run, pure_run]
    rw [pg_fq12ConnectB _ _ _, pg_fq12MulB _ _ _, pg_fq12ConstantB _ _, addGeneratorB_run]
    simp only [fq12EmptyB_state]
  refine ⟨?_, ?_⟩
  · rw [hgens, hres]
  · intro i
    rw [hres]
    exact fq12EmptyB_result s i

/-- C2: `pow` allocates a fresh output gadget (12 fresh coefficient ids) and
registers the exponentiation hint capturing `x`, `offset`, the exponent wire
and the output — and adds no algebraic constraint whatsoever (the builder's
constraint list is unchanged); the hint's execution computes
`offset * x^e` from the concrete values it reads, so with
`offset = constant(1)` the witness value written into the output equals
native `x^e`. -/
theorem fq12_pow_unconstrained (x off : Fin 12 → Nat) (ew : Nat) (s : BState)
    (xv : Fin 12 → Fq) (e : Nat) :
    ((fq12PowB x off ew).run s).2.constraints = s.constraints ∧
    ((fq12PowB x off ew).run s).2.gens
      = s.gens ++ [GEvent.expGen x off ew ((fq12PowB x off ew).run s).1] ∧
    (∀ i : Fin 12, ((fq12PowB x off ew).run s).1 i = s.nextId + (i : Nat)) ∧
    fq12ExpRunOnce xv oneFq12 e = nativePow xv e := by
  refine ⟨(fq12PowB_run x off ew s).1, (fq12PowB_run x off ew s).2.1,
    (fq12PowB_run x off ew s).2.2, ?_⟩
  unfold fq12ExpRunOnce
  exact nativeMul_one_left _

/-- C3: `inv` allocates a fresh output gadget (12 fresh coefficient ids) and
registers the inverse hint capturing `x` and the output; the hint's
execution writes the true native inverse whenever the input is invertible;
and the `mul`/`connect` constraint `x * output == constant(1)` is sound:
under the base-field gadget contract a satisfying assignment forces the
mul-gadget values to be `mulVal` of the inputs, so any satisfying assignment
makes the output's value a multiplicative inverse of `x`'s — and the unique
one. -/
theorem fq12_inv_sound (x : Fin 12 → Nat) (s : BState) :
    (((fq12InvB x).run s).2.gens
        = s.gens ++ [GEvent.invGen x ((fq12InvB x).run s).1] ∧
      ∀ i : Fin 12, ((fq12InvB x).run s).1 i = s.nextId + (i : Nat)) ∧
    (∀ xv yv : Fin 12 → Fq, nativeMul xv yv = oneFq12 →
      ∃ z, fq12InvRunOnce xv = some z ∧ nativeMul xv z = oneFq12) ∧
    (∀ xv outv : Fin 12 → Fq, mulVal xv outv = oneFq12 →
      nativeMul xv outv = oneFq12 ∧
      ∀ y : Fin 12 → Fq, nativeMul xv y = oneFq12 → y = outv) := by
  refine ⟨fq12InvB_run x s, ?_, ?_⟩
  · intro xv yv h
    have hx : xv ≠ zeroFq12 := by
      intro h0
      rw [h0, nativeMul_zero_left] at h
      exact absurd (congrFun h 0) (by decide)
    have hex : ∃ y, nativeMul xv y = oneFq12 := ⟨yv, h⟩
    refine ⟨hex.choose, ?_, hex.choose_spec⟩
    unfold fq12InvRunOnce hostInverse
    rw [if_neg hx, dif_pos hex]
  · intro xv outv h
    have hmul : nativeMul xv outv = oneFq12 := by
      rw [← mulVal_eq_nativeMul]
      exact h
    exact ⟨hmul, fun y hy => nativeMul_inverse_unique xv y outv hy hmul⟩

/-- Witness for C3 at the concrete invertible input `1` (its inverse is `1`),
in the builder state with no prior allocations. -/
theorem fq12_inv_sound_witness :
    (∃ z, fq12InvRunOnce oneFq12 = some z ∧ nativeMul oneFq12 z = oneFq12) ∧
    (nativeMul oneFq12 oneFq12 = oneFq12 ∧
      ∀ y : Fin 12 → Fq, nativeMul oneFq12 y = oneFq12 → y = oneFq12) :=
  ⟨(fq12_inv_sound (fun _ => 0) ⟨0, [], []⟩).2.1 oneFq12 oneFq12
      (nativeMul_one_left oneFq12),
   (fq12_inv_sound (fun _ => 0) ⟨0, [], []⟩).2.2 oneFq12 oneFq12
      (by rw [mulVal_eq_nativeMul]; exact nativeMul_one_left oneFq12)⟩

/-- Witness for the amended C4 at the concrete generator: wire 0 is a
declared dependency and is indeed read. -/
theorem exp_dependencies_are_x_limbs_witness :
    expGenCex.dependencies = expGenCex.x.toVec ∧
    (0 : TargetW) ∈ expGenCex.readWires :=
  ⟨(exp_dependencies_are_x_limbs expGenCex).1,
   (exp_dependencies_are_x_limbs expGenCex).2.2 0 (by decide)⟩
